import Mathlib

/-!
# Verification of the chocolate-sales aggregation core

A shallow embedding of the loader, filter engine and aggregation pipeline of
`src/app.py` (a pandas dashboard).  Tables are lists of rows, currency amounts
are exact rationals, and the float special values that pandas division can
produce are modelled by an explicit `PFloat` type.  Operations that pandas can
abort with an exception are modelled in `Except`.
-/

deriving instance DecidableEq for Except

namespace BeansToBars

/-- Float-like value appearing in a derived ratio column: either a finite
rational or one of the IEEE special values that pandas produces when dividing
by zero (`x/0 = inf` for `x > 0`, `-inf` for `x < 0`, `nan` for `0/0`). -/
inductive PFloat where
  | val : ℚ → PFloat
  | inf : PFloat
  | ninf : PFloat
  | nan : PFloat
deriving DecidableEq, Repr

/-- pandas semantics of `a / b` for a float numerator and integer denominator:
no exception, but a zero denominator yields an IEEE special value. -/
def ratioQ (a : ℚ) (b : ℕ) : PFloat :=
  if b = 0 then
    if 0 < a then PFloat.inf else if a < 0 then PFloat.ninf else PFloat.nan
  else PFloat.val (a / (b : ℚ))

/-- A calendar date as parsed by `pd.to_datetime`. -/
structure Date where
  year : ℕ
  month : ℕ
  day : ℕ
deriving DecidableEq, Repr

/-- A raw CSV row of `Chocolate Sales.csv` before cleaning: the date and the
amount are still strings, the `Boxes Shipped` column is a plain integer. -/
structure RawRow where
  rep : String
  country : String
  product : String
  dateStr : String
  amountStr : String
  boxes : ℕ
deriving DecidableEq, Repr

/-- A row of the canonical table produced by `load_data`: amount parsed to a
number, date parsed, and the three derived columns (`Month`, `Year`,
`Revenue per Box`) cached on the row. -/
structure CRow where
  rep : String
  country : String
  product : String
  date : Date
  amount : ℚ
  boxes : ℕ
  month : String
  year : ℕ
  revenuePerBox : PFloat
deriving DecidableEq, Repr

/-! ## String parsing: `df['Amount'].str.replace('[$,]', '', regex=True).astype(float)`

All string manipulation is done on the underlying character lists with
structural recursion, so every definition evaluates inside the kernel. -/

/-- Split a character list at every occurrence of the separator character
(the behaviour of `str.split` for a single-character separator). -/
def splitOnChar (c : Char) : List Char → List (List Char)
  | [] => [[]]
  | x :: xs =>
    match splitOnChar c xs with
    | [] => if x = c then [[], []] else [[x]]
    | h :: t => if x = c then [] :: h :: t else (x :: h) :: t

/-- The regex replace `[$,] -> ''`: delete every dollar sign and comma. -/
def stripCurrency (s : String) : String :=
  String.mk (s.data.filter (fun c => c ≠ '$' ∧ c ≠ ','))

/-- Digits of a character list, if it is non-empty and all digits. -/
def parseNatDigits (l : List Char) : Option ℕ :=
  if l ≠ [] ∧ l.all (fun c => c.isDigit) then
    some (l.foldl (fun acc c => acc * 10 + (c.toNat - 48)) 0)
  else none

/-- Optional leading sign of a float literal, with the remaining characters. -/
def signSplit : List Char → ℚ × List Char
  | '-' :: rest => ((-1 : ℚ), rest)
  | '+' :: rest => ((1 : ℚ), rest)
  | l => ((1 : ℚ), l)

/-- `float(s)` on the residual string: optional sign, then an integer part and
an optional fractional part (at least one digit overall).  Returns the exact
rational value. -/
def parseDecimal (s : String) : Option ℚ :=
  match splitOnChar '.' (signSplit s.data).2 with
  | [ip] =>
      match parseNatDigits ip with
      | some n => some ((signSplit s.data).1 * (n : ℚ))
      | none => none
  | [ip, fp] =>
      if ip = [] ∧ fp = [] then none
      else
        match (if ip = [] then some 0 else parseNatDigits ip),
            (if fp = [] then some 0 else parseNatDigits fp) with
        | some n, some f =>
            some ((signSplit s.data).1 * ((n : ℚ) + (f : ℚ) / ((10 : ℚ) ^ fp.length)))
        | _, _ => none
  | _ => none

/-- The amount pipeline of line 44: strip `$` and `,`, then parse as float. -/
def parseAmount (s : String) : Option ℚ :=
  parseDecimal (stripCurrency s)

/-! ## Date parsing: `pd.to_datetime(df['Date'], format='%d-%b-%y', errors='coerce')` -/

/-- ASCII lower-casing of one character. -/
def lowerChar (c : Char) : Char :=
  if 65 ≤ c.toNat ∧ c.toNat ≤ 90 then Char.ofNat (c.toNat + 32) else c

def lowerChars (l : List Char) : List Char :=
  l.map lowerChar

def monthAbbrevs : List (List Char) :=
  [['J','a','n'], ['F','e','b'], ['M','a','r'], ['A','p','r'],
   ['M','a','y'], ['J','u','n'], ['J','u','l'], ['A','u','g'],
   ['S','e','p'], ['O','c','t'], ['N','o','v'], ['D','e','c']]

/-- Position (1-based) of a lower-cased abbreviation in the month list. -/
def monthIndex (l : List Char) : List (List Char) → ℕ → Option ℕ
  | [], _ => none
  | m :: ms, i => if lowerChars m = l then some i else monthIndex l ms (i + 1)

/-- `%b`: abbreviated month name, matched case-insensitively. -/
def monthFromAbbrev (l : List Char) : Option ℕ :=
  monthIndex (lowerChars l) monthAbbrevs 1

def isLeapYear (y : ℕ) : Bool :=
  (y % 4 = 0 ∧ y % 100 ≠ 0) ∨ y % 400 = 0

def daysInMonth (y m : ℕ) : ℕ :=
  if m = 2 then (if isLeapYear y then 29 else 28)
  else if m = 4 ∨ m = 6 ∨ m = 9 ∨ m = 11 then 30
  else 31

/-- `%y`: two-digit year, pivot 69 (00–68 → 2000s, 69–99 → 1900s). -/
def expandYear (yy : ℕ) : ℕ :=
  if yy ≤ 68 then 2000 + yy else 1900 + yy

/-- Parse a date string against `%d-%b-%y`; `none` models the `NaT` that
`errors='coerce'` produces for an unparseable date. -/
def parseDate (s : String) : Option Date :=
  match splitOnChar '-' s.data with
  | [ds, ms, ys] => do
      let d ← parseNatDigits ds
      let m ← monthFromAbbrev ms
      let yy ← parseNatDigits ys
      if ds.length ≤ 2 ∧ ys.length = 2 ∧ 1 ≤ d ∧ d ≤ daysInMonth (expandYear yy) m then
        pure ⟨expandYear yy, m, d⟩
      else none
  | _ => none

def monthName (m : ℕ) : String :=
  match m with
  | 1 => "January" | 2 => "February" | 3 => "March" | 4 => "April"
  | 5 => "May" | 6 => "June" | 7 => "July" | 8 => "August"
  | 9 => "September" | 10 => "October" | 11 => "November" | 12 => "December"
  | _ => ""

/-! ## `load_data` (src/app.py lines 42–50) -/

/-- One canonical row from a raw row whose date (and amount) parsed. -/
def mkCRow (r : RawRow) (d : Date) (a : ℚ) : CRow :=
  { rep := r.rep, country := r.country, product := r.product,
    date := d, amount := a, boxes := r.boxes,
    month := monthName d.month, year := d.year,
    revenuePerBox := ratioQ a r.boxes }

/-- `load_data`: `pd.read_csv` first infers the `Amount` column's dtype — if
every field of a non-empty column is plain numeric text the column is read as
float64 and the `.str.replace` of line 44 raises
`AttributeError: Can only use .str accessor with string values`; otherwise the
column holds strings, and `astype(float)` raises (here: `Except.error`) as
soon as any row's stripped amount is not numeric; afterwards rows whose date
fails `%d-%b-%y` are silently dropped (`errors='coerce'` + `dropna`), and the
derived columns are computed for every retained row. -/
def load_data (raw : List RawRow) : Except String (List CRow) :=
  if raw ≠ [] ∧ raw.all (fun r => (parseDecimal r.amountStr).isSome) then
    Except.error "Can only use .str accessor with string values"
  else if raw.all (fun r => (parseAmount r.amountStr).isSome) then
    Except.ok (raw.filterMap (fun r => do
      let a ← parseAmount r.amountStr
      let d ← parseDate r.dateStr
      pure (mkCRow r d a)))
  else
    Except.error "could not convert string to float"

/-! ## Filter engine (src/app.py lines 72–75) -/

/-- `df[(df['Country'].isin(countries)) & (df['Product'].isin(products))]`. -/
def filtered_df (df : List CRow) (countries products : List String) : List CRow :=
  df.filter (fun r => countries.contains r.country && products.contains r.product)

/-- `filtered_df['Amount'].sum()` (line 81). -/
def total_sales (v : List CRow) : ℚ :=
  (v.map (fun r => r.amount)).sum

/-! ## Generic list machinery: stable insertion sort and first-occurrence dedup

`pandas.groupby(sort=True)` lists the groups in ascending key order, and
`Series.nlargest(n)` (with the default `keep='first'`) is a stable descending
sort by value followed by `take n`.  Both sorts are `List.insertionSort`,
which is stable: an element is inserted before the first element `b` it is
related to. -/

/-- One step of first-occurrence deduplication. -/
def dedupStep [DecidableEq κ] (acc : List κ) (k : κ) : List κ :=
  if k ∈ acc then acc else acc ++ [k]

/-- Distinct elements in order of first occurrence. -/
def dedupFirst [DecidableEq κ] (l : List κ) : List κ :=
  l.foldl dedupStep []

/-- The groups of `v.groupby(key)` in the order given by sorting the distinct
keys with `keyR`; each group keeps its rows in original order. -/
def groupsBy [DecidableEq κ] (keyR : κ → κ → Prop) [DecidableRel keyR]
    (key : α → κ) (v : List α) : List (κ × List α) :=
  (List.insertionSort keyR (dedupFirst (v.map key))).map
    (fun k => (k, v.filter (fun r => key r = k)))

/-- Total order on strings (`¬ b < a`), used for pandas key sorting. -/
def strLeR (a b : String) : Prop := ¬ b < a

instance : DecidableRel strLeR := fun a b => inferInstanceAs (Decidable (¬ b < a))

/-- Lexicographic order on `(Year, Month)` or `(Year, Product)` keys. -/
def ymLeR (a b : ℕ × String) : Prop := a.1 < b.1 ∨ (a.1 = b.1 ∧ strLeR a.2 b.2)

instance : DecidableRel ymLeR := fun a b =>
  inferInstanceAs (Decidable (a.1 < b.1 ∨ (a.1 = b.1 ∧ strLeR a.2 b.2)))

/-- Lexicographic order on `(Country, Product)` keys. -/
def ccLeR (a b : String × String) : Prop := a.1 < b.1 ∨ (a.1 = b.1 ∧ strLeR a.2 b.2)

instance : DecidableRel ccLeR := fun a b =>
  inferInstanceAs (Decidable (a.1 < b.1 ∨ (a.1 = b.1 ∧ strLeR a.2 b.2)))

/-- Descending order by the numeric measure of a `(key, sum)` pair; sorting
with it stably keeps the earlier of two equal sums first. -/
def descByVal (a b : κ × ℚ) : Prop := b.2 ≤ a.2

instance : DecidableRel (descByVal (κ := κ)) := fun a b =>
  inferInstanceAs (Decidable (b.2 ≤ a.2))

instance : IsTotal (κ × ℚ) descByVal := ⟨fun a b => le_total b.2 a.2⟩

instance : IsTrans (κ × ℚ) descByVal := ⟨fun _ _ _ h₁ h₂ => le_trans h₂ h₁⟩

/-- `Series.nlargest n` with `keep='first'`: stable descending sort by value,
then the first `n` entries. -/
def nlargest (n : ℕ) (l : List (κ × ℚ)) : List (κ × ℚ) :=
  (List.insertionSort descByVal l).take n

def sumAmount (rs : List CRow) : ℚ := (rs.map (fun r => r.amount)).sum

def sumBoxes (rs : List CRow) : ℕ := (rs.map (fun r => r.boxes)).sum

/-! ## Aggregation pipeline -/

/-- `filtered_df.groupby(['Year', 'Month'])['Amount'].sum().reset_index()`
(line 113). -/
def monthly_sales (v : List CRow) : List ((ℕ × String) × ℚ) :=
  (groupsBy ymLeR (fun r => (r.year, r.month)) v).map (fun g => (g.1, sumAmount g.2))

/-- `filtered_df.groupby(['Country', 'Product'])['Amount'].sum().nlargest(15)`
(line 151). -/
def top_combos (v : List CRow) : List ((String × String) × ℚ) :=
  nlargest 15
    ((groupsBy ccLeR (fun r => (r.country, r.product)) v).map (fun g => (g.1, sumAmount g.2)))

/-- `filtered_df.groupby('Country')['Amount'].sum()` (lines 176 and 373). -/
def country_sales (v : List CRow) : List (String × ℚ) :=
  (groupsBy strLeR (fun r => r.country) v).map (fun g => (g.1, sumAmount g.2))

/-- `filtered_df.groupby('Product')['Amount'].sum().nlargest(10)` (line 196). -/
def top_products (v : List CRow) : List (String × ℚ) :=
  nlargest 10 ((groupsBy strLeR (fun r => r.product) v).map (fun g => (g.1, sumAmount g.2)))

/-- The grouping step of lines 254–258 and 280–284: per-key sum of `Amount`
and of `Boxes Shipped`, then the ratio column `Amount / Boxes Shipped`
computed with no zero test (lines 258 and 284). -/
def aggRatio [DecidableEq κ] (keyR : κ → κ → Prop) [DecidableRel keyR] (key : CRow → κ)
    (v : List CRow) : List (κ × ℚ × ℕ × PFloat) :=
  (groupsBy keyR key v).map
    (fun g => (g.1, sumAmount g.2, sumBoxes g.2, ratioQ (sumAmount g.2) (sumBoxes g.2)))

/-- `growth_df` (lines 254–258): grouped by `(Year, Product)`. -/
def growth_df (v : List CRow) : List ((ℕ × String) × ℚ × ℕ × PFloat) :=
  aggRatio ymLeR (fun r => (r.year, r.product)) v

/-- `ratio_df` (lines 280–284): grouped by `Product`. -/
def ratio_df (v : List CRow) : List (String × ℚ × ℕ × PFloat) :=
  aggRatio strLeR (fun r => r.product) v

/-- `Series.idxmax`: the key of the first maximal value, raising `ValueError`
on an empty series (pandas `attempt to get argmax of an empty sequence`). -/
def idxmax : List (String × ℚ) → Except String String
  | [] => Except.error "attempt to get argmax of an empty sequence"
  | p :: rest =>
      Except.ok (rest.foldl (fun best q => if best.2 < q.2 then q else best) p).1

/-- `top_country = country_sales.idxmax()` (line 374). -/
def top_country (v : List CRow) : Except String String :=
  idxmax (country_sales v)

/-! ## Geo lookup (src/app.py lines 170–177)

`pycountry.countries.search_fuzzy` is an external collaborator: it either
returns a country whose `alpha_3` is a 3-letter code, or raises (modelled as
`Except.error`).  `country_to_iso` wraps it in `try/except` and maps every
exception to `None`. -/

def country_to_iso (lookup : String → Except String String) (name : String) :
    Option String :=
  match lookup name with
  | Except.ok code => some code
  | Except.error _ => none

/-- `country_sales['ISO'] = country_sales['Country'].apply(country_to_iso)`
(line 177): the per-country sums with the resolved ISO column attached. -/
def country_sales_iso (lookup : String → Except String String) (v : List CRow) :
    List (String × ℚ × Option String) :=
  (country_sales v).map (fun p => (p.1, p.2, country_to_iso lookup p.1))

/-- Modelled from the spec: the rendering collaborator (`px.choropleth`, out of
scope) draws only rows with a resolved `ISO` location; a row with a null code
is excluded from the map. -/
def choropleth_rows (lookup : String → Except String String) (v : List CRow) :
    List (String × ℚ × Option String) :=
  (country_sales_iso lookup v).filter (fun t => t.2.2.isSome)

/-! ## CSV export (src/app.py lines 398–406)

`filtered_df.to_csv(index=False)` writes the base columns back out: the
datetime column prints in ISO `YYYY-MM-DD` form, and the float amount prints
as a plain signed decimal numeral (no currency symbol, no thousands
separator). -/

/-- Decimal digit characters of a natural number (`Nat.toDigits 10`). -/
def natDigits (n : ℕ) : List Char :=
  Nat.toDigits 10 n

/-- Zero-padded two-digit field of the ISO date. -/
def pad2Chars (n : ℕ) : List Char :=
  if n < 10 then '0' :: natDigits n else natDigits n

def isoDateChars (d : Date) : List Char :=
  natDigits d.year ++ '-' :: (pad2Chars d.month ++ '-' :: pad2Chars d.day)

/-- `pd.Timestamp` CSV form: `YYYY-MM-DD`. -/
def isoDate (d : Date) : String :=
  String.mk (isoDateChars d)

/-- Fraction digits of `r / d` (long division, 20 digits of precision, which
is exact for every decimal the loader can produce). -/
def fracDigits : ℕ → ℕ → ℕ → List Char
  | 0, _, _ => []
  | _ + 1, 0, _ => []
  | fuel + 1, r, d =>
      Nat.digitChar (r * 10 / d % 10) :: fracDigits fuel (r * 10 % d) d

def amountCsvChars (q : ℚ) : List Char :=
  (if q < 0 then ['-'] else []) ++
    natDigits (q.num.natAbs / q.den) ++
      '.' :: (if fracDigits 20 (q.num.natAbs % q.den) q.den = []
              then ['0'] else fracDigits 20 (q.num.natAbs % q.den) q.den)

/-- The float amount as written by `to_csv` (e.g. `100.0`). -/
def amountCsv (q : ℚ) : String :=
  String.mk (amountCsvChars q)

/-- The raw-row image of the filtered view under `to_csv`, restricted to the
base columns (the derived `Month`, `Year` and `Revenue per Box` columns are
the ones the round-trip claim excludes). -/
def export_csv (v : List CRow) : List RawRow :=
  v.map (fun r =>
    { rep := r.rep, country := r.country, product := r.product,
      dateStr := isoDate r.date, amountStr := amountCsv r.amount,
      boxes := r.boxes })

/-! ## The claimed tie-break order for the top-15 aggregate

The claim states that `top_combos` breaks ties between equal sums "in favor
of the first-encountered grouping key".  This definition follows the claim's
words: group sums listed in order of first encounter in the filtered view,
stably sorted descending by sum, truncated to 15. -/

def comboSumsFirstEncounter (v : List CRow) : List ((String × String) × ℚ) :=
  (dedupFirst (v.map (fun r => (r.country, r.product)))).map
    (fun k => (k, sumAmount (v.filter (fun r => (r.country, r.product) = k))))

def claimedTopCombos (v : List CRow) : List ((String × String) × ℚ) :=
  (List.insertionSort descByVal (comboSumsFirstEncounter v)).take 15

/-- Number of distinct `(Country, Product)` combinations in a view. -/
def numCombos (v : List CRow) : ℕ :=
  (dedupFirst (v.map (fun r => (r.country, r.product)))).length

/-! ## Concrete tables used as witnesses and counterexamples -/

/-- The two-row scenario input of the specification (§8). -/
def rawScenario : List RawRow :=
  [⟨"Jehu Rudeforth", "USA", "70% Dark Bites", "5-Jan-22", "$100.00", 10⟩,
   ⟨"Van Tuxwell", "USA", "70% Dark Bites", "6-Jan-22", "$50.00", 5⟩]

/-- The canonical table loaded from the scenario input. -/
def tblScenario : List CRow :=
  (load_data rawScenario).toOption.getD []

/-- The scenario table filtered with the caller's default all-values filter. -/
def viewScenario : List CRow :=
  filtered_df tblScenario ["USA"] ["70% Dark Bites"]

/-- A single-amount, single-country, single-product row for small tables. -/
def mkRow (c p : String) (a : ℚ) (b : ℕ) : CRow :=
  ⟨"rep", c, p, ⟨2022, 1, 5⟩, a, b, "January", 2022, ratioQ a b⟩

/-- A filtered view whose only product group has zero total boxes shipped. -/
def zeroBoxView : List CRow :=
  [mkRow "India" "Mint Chip Choco" 100 0]

/-- Sixteen distinct country×product combinations: fourteen with sum 100 and
two tied at 10, the tie pair appearing in the data with the lexicographically
larger key (`ZZ`) first. -/
def combosView : List CRow :=
  [mkRow "C01" "p" 100 1, mkRow "C02" "p" 100 1, mkRow "C03" "p" 100 1,
   mkRow "C04" "p" 100 1, mkRow "C05" "p" 100 1, mkRow "C06" "p" 100 1,
   mkRow "C07" "p" 100 1, mkRow "C08" "p" 100 1, mkRow "C09" "p" 100 1,
   mkRow "C10" "p" 100 1, mkRow "C11" "p" 100 1, mkRow "C12" "p" 100 1,
   mkRow "C13" "p" 100 1, mkRow "C14" "p" 100 1,
   mkRow "ZZ" "p" 10 1, mkRow "AA" "p" 10 1]

/-- A raw input with one unparseable amount field. -/
def rawBadAmount : List RawRow :=
  [⟨"Jehu Rudeforth", "USA", "70% Dark Bites", "5-Jan-22", "$100.00", 10⟩,
   ⟨"Van Tuxwell", "UK", "85% Dark Bars", "6-Jan-22", "$12x", 3⟩]

/-- A raw input with exactly one unparseable date (`"not-a-date"`). -/
def rawBadDate : List RawRow :=
  [⟨"Jehu Rudeforth", "USA", "70% Dark Bites", "5-Jan-22", "$100.00", 10⟩,
   ⟨"Van Tuxwell", "UK", "85% Dark Bars", "not-a-date", "$70.00", 7⟩,
   ⟨"Gigi Bohling", "India", "Mint Chip Choco", "6-Jan-22", "$50.00", 5⟩]

/-- A concrete geo-lookup collaborator: resolves one name, raises on the
rest. -/
def lookupDemo (name : String) : Except String String :=
  if name = "India" then Except.ok "IND" else Except.error "LookupError"

/-- A small two-country view for the geo-lookup claim. -/
def geoView : List CRow :=
  [mkRow "India" "Mint Chip Choco" 100 10, mkRow "Atlantis" "99% Dark" 50 5]

/-! ## Helper lemmas -/

/-- An empty country selection excludes every row. -/
theorem filtered_nil_countries (df : List CRow) (ps : List String) :
    filtered_df df [] ps = [] := by
  simp [filtered_df]

/-- An empty product selection excludes every row. -/
theorem filtered_nil_products (df : List CRow) (cs : List String) :
    filtered_df df cs [] = [] := by
  simp [filtered_df]

theorem isDigit_ne (c : Char) (h : c.isDigit = true) :
    c ≠ '-' ∧ c ≠ '.' ∧ c ≠ '$' ∧ c ≠ ',' := by
  refine ⟨?_, ?_, ?_, ?_⟩ <;> rintro rfl <;> exact absurd h (by decide)

theorem mem_dedup_go [DecidableEq κ] :
    ∀ (l acc : List κ) (x : κ), x ∈ l.foldl dedupStep acc ↔ x ∈ acc ∨ x ∈ l := by
  intro l
  induction l with
  | nil => simp
  | cons k ks ih =>
      intro acc x
      by_cases hk : k ∈ acc
      · simp only [List.foldl_cons, dedupStep, if_pos hk, ih, List.mem_cons]
        constructor
        · rintro (h | h)
          · exact Or.inl h
          · exact Or.inr (Or.inr h)
        · rintro (h | rfl | h)
          · exact Or.inl h
          · exact Or.inl hk
          · exact Or.inr h
      · simp only [List.foldl_cons, dedupStep, if_neg hk, ih, List.mem_append,
          List.mem_singleton, List.mem_cons]
        tauto

theorem nodup_dedup_go [DecidableEq κ] :
    ∀ (l acc : List κ), acc.Nodup → (l.foldl dedupStep acc).Nodup := by
  intro l
  induction l with
  | nil => intro acc h; exact h
  | cons k ks ih =>
      intro acc hacc
      by_cases hk : k ∈ acc
      · simpa [dedupStep, if_pos hk] using ih acc hacc
      · refine ih _ ?_
        simp only [dedupStep, if_neg hk]
        simpa [List.nodup_append] using ⟨hacc, hk⟩

theorem mem_dedupFirst [DecidableEq κ] (l : List κ) (x : κ) :
    x ∈ dedupFirst l ↔ x ∈ l := by
  simpa [dedupFirst] using mem_dedup_go l [] x

theorem nodup_dedupFirst [DecidableEq κ] (l : List κ) : (dedupFirst l).Nodup :=
  nodup_dedup_go l [] List.nodup_nil

/-- Summing an indicator over a list not containing the key gives zero. -/
theorem sum_if_not_mem [DecidableEq κ] (c : κ) (a : ℚ) :
    ∀ (ks : List κ), c ∉ ks → ((ks.map (fun k => if c = k then a else 0)).sum = 0) := by
  intro ks
  induction ks with
  | nil => intro _; rfl
  | cons k rest ih =>
      intro hnot
      have hne : c ≠ k := fun h => hnot (h ▸ List.mem_cons_self k rest)
      simp only [List.map_cons, List.sum_cons, if_neg hne, zero_add]
      exact ih (fun h => hnot (List.mem_cons_of_mem k h))

/-- Summing an indicator over a duplicate-free list containing the key picks
out exactly one term. -/
theorem sum_if_mem [DecidableEq κ] (c : κ) (a : ℚ) :
    ∀ (ks : List κ), ks.Nodup → c ∈ ks →
      ((ks.map (fun k => if c = k then a else 0)).sum = a) := by
  intro ks
  induction ks with
  | nil => intro _ h; cases h
  | cons k rest ih =>
      intro hnd hmem
      rcases List.mem_cons.mp hmem with rfl | hmem
      · have hnot : c ∉ rest := (List.nodup_cons.mp hnd).1
        simp [sum_if_not_mem c a rest hnot]
      · have hne : c ≠ k := fun h => (List.nodup_cons.mp hnd).1 (h ▸ hmem)
        simp only [List.map_cons, List.sum_cons, if_neg hne, zero_add]
        exact ih (List.nodup_cons.mp hnd).2 hmem

/-- Group-by-sum partitions the measure: over any duplicate-free key list that
covers all rows, the per-group sums add up to the total. -/
theorem sum_groups_partition [DecidableEq κ] (key : α → κ) (meas : α → ℚ) :
    ∀ (v : List α) (ks : List κ), ks.Nodup → (∀ r ∈ v, key r ∈ ks) →
      (ks.map (fun k => ((v.filter (fun r => key r = k)).map meas).sum)).sum
        = (v.map meas).sum := by
  intro v
  induction v with
  | nil => intro ks _ _; simp
  | cons r rest ih =>
      intro ks hnd hcov
      have hr : key r ∈ ks := hcov r (List.mem_cons_self r rest)
      have hrest : ∀ x ∈ rest, key x ∈ ks := fun x hx => hcov x (List.mem_cons_of_mem r hx)
      have hsplit : ∀ k : κ,
          (((r :: rest).filter (fun x => key x = k)).map meas).sum
            = (if key r = k then meas r else 0)
              + ((rest.filter (fun x => key x = k)).map meas).sum := by
        intro k
        by_cases h : key r = k
        · simp [List.filter_cons, h]
        · simp [List.filter_cons, h]
      calc (ks.map (fun k => (((r :: rest).filter (fun x => key x = k)).map meas).sum)).sum
          = (ks.map (fun k => (if key r = k then meas r else 0)
              + ((rest.filter (fun x => key x = k)).map meas).sum)).sum := by
            congr 1
            exact List.map_congr_left (fun k _ => hsplit k)
        _ = (ks.map (fun k => if key r = k then meas r else 0)).sum
              + (ks.map (fun k => ((rest.filter (fun x => key x = k)).map meas).sum)).sum := by
            rw [← List.sum_map_add]
        _ = meas r + (rest.map meas).sum := by
            rw [sum_if_mem (key r) (meas r) ks hnd hr, ih ks hnd hrest]
        _ = ((r :: rest).map meas).sum := by simp

/-- The second components of a group-by-sum result add up to the total of the
measure over the view. -/
theorem groupsBy_sum_eq [DecidableEq κ] (keyR : κ → κ → Prop) [DecidableRel keyR]
    (key : CRow → κ) (v : List CRow) :
    (((groupsBy keyR key v).map (fun g => (g.1, sumAmount g.2))).map
        (fun p => p.2)).sum = total_sales v := by
  have h1 : (((groupsBy keyR key v).map (fun g => (g.1, sumAmount g.2))).map
        (fun p => p.2)).sum
      = ((List.insertionSort keyR (dedupFirst (v.map key))).map
          (fun k => ((v.filter (fun r => key r = k)).map (fun r => r.amount)).sum)).sum := by
    simp only [groupsBy, List.map_map]
    rfl
  have hperm : List.Perm
      ((List.insertionSort keyR (dedupFirst (v.map key))).map
        (fun k => ((v.filter (fun r => key r = k)).map (fun r => r.amount)).sum))
      ((dedupFirst (v.map key)).map
          (fun k => ((v.filter (fun r => key r = k)).map (fun r => r.amount)).sum)) :=
    (List.perm_insertionSort keyR _).map _
  rw [h1, hperm.sum_eq]
  exact sum_groups_partition key (fun r => r.amount) v (dedupFirst (v.map key))
    (nodup_dedupFirst _)
    (fun r hr => (mem_dedupFirst _ _).mpr (List.mem_map_of_mem key hr))

/-! ## Claims -/

/-- C1: for every canonical table and every pair of selection lists, the
filter returns exactly the sub-sequence of rows whose country and product are
both selected, preserving relative order; an empty selection excludes all
rows; and the amount sum of the filtered view equals the sum of amounts over
all rows satisfying both membership predicates. -/
theorem filter_returns_matching_subsequence (df : List CRow) (cs ps : List String) :
    (filtered_df df cs ps).Sublist df
    ∧ (∀ r, r ∈ filtered_df df cs ps ↔ r ∈ df ∧ r.country ∈ cs ∧ r.product ∈ ps)
    ∧ filtered_df df [] ps = []
    ∧ filtered_df df cs [] = []
    ∧ total_sales (filtered_df df cs ps)
        = (df.map (fun r => if r.country ∈ cs ∧ r.product ∈ ps then r.amount else 0)).sum := by
  refine ⟨List.filter_sublist df, ?_, filtered_nil_countries df ps,
    filtered_nil_products df cs, ?_⟩
  · intro r
    simp [filtered_df, List.mem_filter, and_assoc]
  · induction df with
    | nil => rfl
    | cons r rest ih =>
        simp [filtered_df, total_sales] at ih ⊢
        by_cases h : r.country ∈ cs ∧ r.product ∈ ps
        · simp [List.filter_cons, h.1, h.2, ih]
        · rcases not_and_or.mp h with h1 | h1 <;> simp [List.filter_cons, h1, ih]

/-- C2: the claim says every aggregate degrades to an empty result on an empty
filtered view; in the code the top-country summary instead calls `idxmax` on
the empty per-country series, which raises `ValueError` — here evaluated at
the failing input (all countries deselected). -/
theorem top_country_raises_on_empty_filter (df : List CRow) (ps : List String) :
    top_country (filtered_df df [] ps)
      = Except.error "attempt to get argmax of an empty sequence" := by
  rw [top_country, filtered_nil_countries]
  rfl

/-- C3: the claim says the per-group ratio is computed only after a zero test
on the denominator and no Infinity is produced; in the code the ratio column
divides unconditionally, so a product group with zero boxes shipped and
positive amount yields `inf` in both `ratio_df` and `growth_df`. -/
theorem ratio_zero_boxes_yields_infinity :
    ratio_df zeroBoxView = [("Mint Chip Choco", (100 : ℚ), 0, PFloat.inf)]
    ∧ growth_df zeroBoxView
        = [((2022, "Mint Chip Choco"), (100 : ℚ), 0, PFloat.inf)] := by
  with_unfolding_all decide

/-- Under the amount guard, the loader's `filterMap` is exactly a filter on
date parseability followed by building the canonical row. -/
theorem filterMap_load_eq (raw : List RawRow)
    (hA : ∀ r ∈ raw, (parseAmount r.amountStr).isSome = true) :
    (raw.filterMap (fun r => do
        let a ← parseAmount r.amountStr
        let d ← parseDate r.dateStr
        pure (mkCRow r d a)))
      = (raw.filter (fun r => (parseDate r.dateStr).isSome)).map
          (fun r => mkCRow r ((parseDate r.dateStr).getD ⟨0, 0, 0⟩)
            ((parseAmount r.amountStr).getD 0)) := by
  induction raw with
  | nil => rfl
  | cons r rest ih =>
      obtain ⟨a, ha⟩ := Option.isSome_iff_exists.mp (hA r (List.mem_cons_self r rest))
      have ih' := ih (fun x hx => hA x (List.mem_cons_of_mem r hx))
      cases hd : parseDate r.dateStr with
      | none =>
          simp only [List.filterMap_cons, List.filter_cons, ha, hd, Option.some_bind,
            Option.none_bind, Option.isSome_none, Bool.false_eq_true, if_false,
            cond_false]
          exact ih'
      | some d =>
          simp only [List.filterMap_cons, List.filter_cons, ha, hd, Option.some_bind,
            Option.isSome_some, if_true, cond_true, Option.getD_some, List.map_cons]
          rw [ih']
          rfl

/-- Splitting a list by a boolean predicate preserves the total length. -/
theorem length_filter_pos_neg (p : α → Bool) :
    ∀ l : List α, (l.filter p).length + (l.filter (fun x => ! p x)).length = l.length := by
  intro l
  induction l with
  | nil => rfl
  | cons x xs ih =>
      cases hp : p x <;> simp [List.filter_cons, hp, ← ih] <;> omega

/-- If exactly one row has an unparseable date, the date filter keeps all but
one row. -/
theorem filter_isSome_length (raw : List RawRow)
    (hD : (raw.filter (fun r => (parseDate r.dateStr).isNone)).length = 1) :
    (raw.filter (fun r => (parseDate r.dateStr).isSome)).length + 1 = raw.length := by
  have h := length_filter_pos_neg (fun r => (parseDate r.dateStr).isSome) raw
  have heq : (raw.filter (fun r => ! (parseDate r.dateStr).isSome))
      = raw.filter (fun r => (parseDate r.dateStr).isNone) := by
    apply List.filter_congr
    intro x _
    cases parseDate x.dateStr <;> rfl
  rw [heq, hD] at h
  exact h

/-- C4: for an amount column of genuine currency text (some field is not plain
numeric, so `read_csv` keeps strings), if every amount parses after stripping
and exactly one row's date string fails the day-abbreviated-month-year parse,
the canonical table is the in-order image of the rows whose date parses (so
dropped rows never appear and relative order is kept), and its row count is
exactly the input count minus one. -/
theorem load_drops_unparseable_dates (raw : List RawRow)
    (hS : raw.all (fun r => (parseDecimal r.amountStr).isSome) = false)
    (hA : ∀ r ∈ raw, (parseAmount r.amountStr).isSome = true)
    (hD : (raw.filter (fun r => (parseDate r.dateStr).isNone)).length = 1) :
    load_data raw = Except.ok ((raw.filter (fun r => (parseDate r.dateStr).isSome)).map
        (fun r => mkCRow r ((parseDate r.dateStr).getD ⟨0, 0, 0⟩)
          ((parseAmount r.amountStr).getD 0)))
    ∧ ((raw.filter (fun r => (parseDate r.dateStr).isSome)).map
        (fun r => mkCRow r ((parseDate r.dateStr).getD ⟨0, 0, 0⟩)
          ((parseAmount r.amountStr).getD 0))).length + 1 = raw.length := by
  constructor
  · have hg1 : ¬ (raw ≠ [] ∧ raw.all (fun r => (parseDecimal r.amountStr).isSome) = true) := by
      rintro ⟨_, hall⟩
      rw [hS] at hall
      cases hall
    rw [load_data, if_neg hg1, if_pos (List.all_eq_true.mpr hA)]
    exact congrArg Except.ok (filterMap_load_eq raw hA)
  · rw [List.length_map]
    exact filter_isSome_length raw hD

/-- C4 witness: on the three-row input whose middle date is `"not-a-date"`,
the canonical table keeps the two good rows in order and has length two. -/
theorem load_drops_unparseable_dates_witness :
    load_data rawBadDate
      = Except.ok ((rawBadDate.filter (fun r => (parseDate r.dateStr).isSome)).map
          (fun r => mkCRow r ((parseDate r.dateStr).getD ⟨0, 0, 0⟩)
            ((parseAmount r.amountStr).getD 0)))
    ∧ ((rawBadDate.filter (fun r => (parseDate r.dateStr).isSome)).map
          (fun r => mkCRow r ((parseDate r.dateStr).getD ⟨0, 0, 0⟩)
            ((parseAmount r.amountStr).getD 0))).length + 1 = rawBadDate.length :=
  load_drops_unparseable_dates rawBadDate
    (by with_unfolding_all decide) (by with_unfolding_all decide)
    (by with_unfolding_all decide)

theorem splitOnChar_ne_nil (c : Char) (l : List Char) : splitOnChar c l ≠ [] := by
  cases l with
  | nil => simp [splitOnChar]
  | cons x xs =>
      simp only [splitOnChar]
      split <;> split <;> simp

/-- Every character of a list is either the separator or belongs to one of the
split parts. -/
theorem mem_splitOnChar (c : Char) :
    ∀ (l : List Char) (x : Char), x ∈ l → x = c ∨ ∃ p ∈ splitOnChar c l, x ∈ p := by
  intro l
  induction l with
  | nil => intro x hx; cases hx
  | cons y ys ih =>
      intro x hx
      rcases hys : splitOnChar c ys with _ | ⟨h, t⟩
      · exact absurd hys (splitOnChar_ne_nil c ys)
      have hres : splitOnChar c (y :: ys)
          = if y = c then [] :: h :: t else (y :: h) :: t := by
        simp [splitOnChar, hys]
      rcases List.mem_cons.mp hx with rfl | hx
      · by_cases hyc : x = c
        · exact Or.inl hyc
        · refine Or.inr ⟨x :: h, ?_, List.mem_cons_self x h⟩
          rw [hres, if_neg hyc]
          exact List.mem_cons_self _ _
      · rcases ih x hx with rfl | ⟨p, hp, hxp⟩
        · exact Or.inl rfl
        · have hp' : p = h ∨ p ∈ t := by
            rw [hys] at hp
            exact List.mem_cons.mp hp
          by_cases hyc : y = c
          · refine Or.inr ⟨p, ?_, hxp⟩
            rw [hres, if_pos hyc]
            rcases hp' with rfl | hpt
            · exact List.mem_cons_of_mem _ (List.mem_cons_self _ _)
            · exact List.mem_cons_of_mem _ (List.mem_cons_of_mem _ hpt)
          · rcases hp' with rfl | hpt
            · refine Or.inr ⟨y :: p, ?_, List.mem_cons_of_mem y hxp⟩
              rw [hres, if_neg hyc]
              exact List.mem_cons_self _ _
            · refine Or.inr ⟨p, ?_, hxp⟩
              rw [hres, if_neg hyc]
              exact List.mem_cons_of_mem _ hpt

/-- The sign splitter only ever removes a leading `-` or `+`. -/
theorem signSplit_cases (l : List Char) :
    l = (signSplit l).2 ∨ l = '-' :: (signSplit l).2 ∨ l = '+' :: (signSplit l).2 := by
  unfold signSplit
  split
  · exact Or.inr (Or.inl rfl)
  · exact Or.inr (Or.inr rfl)
  · exact Or.inl rfl

theorem parseNatDigits_digits_of_isSome (l : List Char)
    (h : (parseNatDigits l).isSome = true) : ∀ c ∈ l, c.isDigit = true := by
  unfold parseNatDigits at h
  split at h
  · rename_i hcond
    exact fun c hc => List.all_eq_true.mp hcond.2 c hc
  · cases h

/-- A string the decimal parser accepts consists only of digits, signs and a
decimal point. -/
theorem parseDecimal_chars (s : String) (h : (parseDecimal s).isSome = true) :
    ∀ x ∈ s.data, x.isDigit = true ∨ x = '-' ∨ x = '+' ∨ x = '.' := by
  have hbody : ∀ x ∈ (signSplit s.data).2, x.isDigit = true ∨ x = '.' := by
    intro x hx
    unfold parseDecimal at h
    rcases hsp : splitOnChar '.' (signSplit s.data).2 with _ | ⟨p1, rest⟩
    · exact absurd hsp (splitOnChar_ne_nil _ _)
    have hmem := mem_splitOnChar '.' (signSplit s.data).2 x hx
    rw [hsp] at h hmem
    rcases hmem with rfl | ⟨p, hp, hxp⟩
    · exact Or.inr rfl
    cases rest with
    | nil =>
        dsimp only at h
        simp only [List.mem_singleton] at hp
        subst hp
        cases hpn : parseNatDigits p with
        | none => rw [hpn] at h; simp at h
        | some n =>
            exact Or.inl (parseNatDigits_digits_of_isSome p (by rw [hpn]; rfl) x hxp)
    | cons p2 rest2 =>
        cases rest2 with
        | nil =>
            dsimp only at h
            by_cases h12 : p1 = [] ∧ p2 = []
            · rw [if_pos h12] at h
              simp at h
            rw [if_neg h12] at h
            rcases List.mem_cons.mp hp with rfl | hp2
            · by_cases hp1 : p = []
              · exact absurd (hp1 ▸ hxp) (List.not_mem_nil x)
              · rw [if_neg hp1] at h
                cases hpn : parseNatDigits p with
                | none => rw [hpn] at h; simp at h
                | some n =>
                    exact Or.inl
                      (parseNatDigits_digits_of_isSome p (by rw [hpn]; rfl) x hxp)
            · simp only [List.mem_singleton] at hp2
              subst hp2
              by_cases hp2e : p = []
              · exact absurd (hp2e ▸ hxp) (List.not_mem_nil x)
              have hs2 : (parseNatDigits p).isSome = true := by
                by_cases hp1 : p1 = []
                · rw [if_pos hp1, if_neg hp2e] at h
                  cases hpn : parseNatDigits p with
                  | none => rw [hpn] at h; simp at h
                  | some n => rfl
                · rw [if_neg hp1, if_neg hp2e] at h
                  cases hq : parseNatDigits p1 with
                  | none => rw [hq] at h; simp at h
                  | some m =>
                      rw [hq] at h
                      cases hpn : parseNatDigits p with
                      | none => rw [hpn] at h; simp at h
                      | some n => rfl
              exact Or.inl (parseNatDigits_digits_of_isSome p hs2 x hxp)
        | cons _ _ =>
            dsimp only at h
            simp at h
  intro x hx
  rcases signSplit_cases s.data with hb | hb | hb
  · rcases hbody x (hb ▸ hx) with hd | rfl
    · exact Or.inl hd
    · exact Or.inr (Or.inr (Or.inr rfl))
  · rw [hb] at hx
    rcases List.mem_cons.mp hx with rfl | hx2
    · exact Or.inr (Or.inl rfl)
    · rcases hbody x hx2 with hd | rfl
      · exact Or.inl hd
      · exact Or.inr (Or.inr (Or.inr rfl))
  · rw [hb] at hx
    rcases List.mem_cons.mp hx with rfl | hx2
    · exact Or.inr (Or.inr (Or.inl rfl))
    · rcases hbody x hx2 with hd | rfl
      · exact Or.inl hd
      · exact Or.inr (Or.inr (Or.inr rfl))

/-- Stripping currency characters does not change a string the decimal parser
already accepts: such a string has no `$` or `,`. -/
theorem stripCurrency_of_decimal (s : String) (h : (parseDecimal s).isSome = true) :
    stripCurrency s = s := by
  unfold stripCurrency
  have hkeep : s.data.filter (fun c => decide (c ≠ '$' ∧ c ≠ ',')) = s.data := by
    apply List.filter_eq_self.mpr
    intro c hc
    apply decide_eq_true
    rcases parseDecimal_chars s h c hc with hd | rfl | rfl | rfl
    · exact ⟨(isDigit_ne c hd).2.2.1, (isDigit_ne c hd).2.2.2⟩
    · exact ⟨by decide, by decide⟩
    · exact ⟨by decide, by decide⟩
    · exact ⟨by decide, by decide⟩
  rw [hkeep]

/-- C5: the loader parses each amount by stripping `$` and `,` and parsing the
residual as a decimal; a raw input containing an amount whose residual is not
numeric makes the whole load fail (the `astype(float)` `ValueError`), rather
than dropping the row or coercing to zero. -/
theorem load_fails_on_nonnumeric_amount (raw : List RawRow) (r : RawRow)
    (hmem : r ∈ raw) (hbad : parseDecimal (stripCurrency r.amountStr) = none) :
    load_data raw = Except.error "could not convert string to float" := by
  have hplain : ¬ ((parseDecimal r.amountStr).isSome = true) := by
    intro hps
    rw [stripCurrency_of_decimal r.amountStr hps] at hbad
    rw [hbad] at hps
    cases hps
  have hg1 : ¬ (raw ≠ [] ∧ raw.all (fun x => (parseDecimal x.amountStr).isSome) = true) := by
    rintro ⟨_, hall⟩
    exact hplain (List.all_eq_true.mp hall r hmem)
  have hg2 : ¬ (raw.all (fun x => (parseAmount x.amountStr).isSome) = true) := by
    intro hall
    have h := List.all_eq_true.mp hall r hmem
    rw [parseAmount, hbad] at h
    cases h
  rw [load_data, if_neg hg1, if_neg hg2]

/-- C5 witness: the two-row input whose second amount is `$12x` fails the
load. -/
theorem load_fails_on_nonnumeric_amount_witness :
    load_data rawBadAmount = Except.error "could not convert string to float" :=
  load_fails_on_nonnumeric_amount rawBadAmount
    ⟨"Van Tuxwell", "UK", "85% Dark Bars", "6-Jan-22", "$12x", 3⟩
    (by with_unfolding_all decide) (by with_unfolding_all decide)

/-- C9: every aggregation operation is deterministic — two runs over identical
filtered views produce identical result tables, row order included. -/
theorem aggregates_deterministic (v w : List CRow) (h : v = w) :
    monthly_sales v = monthly_sales w ∧ top_products v = top_products w
    ∧ country_sales v = country_sales w ∧ top_combos v = top_combos w
    ∧ ratio_df v = ratio_df w ∧ growth_df v = growth_df w := by
  subst h
  exact ⟨rfl, rfl, rfl, rfl, rfl, rfl⟩

/-- C9 witness: determinism instantiated on the scenario view. -/
theorem aggregates_deterministic_witness :
    monthly_sales viewScenario = monthly_sales viewScenario
    ∧ top_products viewScenario = top_products viewScenario
    ∧ country_sales viewScenario = country_sales viewScenario
    ∧ top_combos viewScenario = top_combos viewScenario
    ∧ ratio_df viewScenario = ratio_df viewScenario
    ∧ growth_df viewScenario = growth_df viewScenario :=
  aggregates_deterministic viewScenario viewScenario rfl

/-- C10: the group-by-sum aggregates partition the filtered view, so the
amounts of the monthly result table add up to the total sales figure, and so
do the per-country sums. -/
theorem groupby_sums_partition_total (v : List CRow) :
    ((monthly_sales v).map (fun p => p.2)).sum = total_sales v
    ∧ ((country_sales v).map (fun p => p.2)).sum = total_sales v :=
  ⟨groupsBy_sum_eq ymLeR (fun r => (r.year, r.month)) v,
   groupsBy_sum_eq strLeR (fun r => r.country) v⟩

/-- C6 counterexample: ties between equal sums are not broken in favour of the
first-encountered grouping key.  On sixteen distinct combinations with two
sums tied at the truncation boundary, the code (`groupby` sorts keys before
`nlargest`) keeps the lexicographically smallest tied key `("AA", "p")`,
while the claim's first-encounter tie-break would keep `("ZZ", "p")`, which
appears first in the data. -/
theorem top_combos_tiebreak_counterexample :
    top_combos combosView ≠ claimedTopCombos combosView
    ∧ (("AA", "p"), (10 : ℚ)) ∈ top_combos combosView
    ∧ (("ZZ", "p"), (10 : ℚ)) ∉ top_combos combosView
    ∧ (("ZZ", "p"), (10 : ℚ)) ∈ claimedTopCombos combosView := by
  with_unfolding_all decide

/-- C6 (amended): the top combo aggregate groups by `(Country, Product)`, sums
`Amount` per group, stably sorts descending by the sum and truncates to 15,
with ties between equal sums broken in favour of the smallest grouping key in
ascending key order (because `groupby` sorts its keys), not the
first-encountered one; with at least 15 distinct combinations the result has
exactly 15 rows, is sorted descending by summed amount, and every row is a
genuine group with its group sum. -/
theorem top_combos_top15_sorted (v : List CRow) (h15 : 15 ≤ numCombos v) :
    (top_combos v).length = 15
    ∧ (top_combos v).Sorted descByVal
    ∧ ∀ p ∈ top_combos v,
        p.1 ∈ v.map (fun r => (r.country, r.product))
        ∧ p.2 = sumAmount (v.filter (fun r => (r.country, r.product) = p.1)) := by
  refine ⟨?_, ?_, ?_⟩
  · rw [top_combos, nlargest, List.length_take, List.length_insertionSort,
      List.length_map, groupsBy, List.length_map, List.length_insertionSort]
    exact Nat.min_eq_left h15
  · exact List.Pairwise.sublist (List.take_sublist _ _)
      (List.sorted_insertionSort descByVal _)
  · intro p hp
    have hp1 : p ∈ List.insertionSort descByVal
        ((groupsBy ccLeR (fun r => (r.country, r.product)) v).map
          (fun g => (g.1, sumAmount g.2))) := List.mem_of_mem_take hp
    have hp2 : p ∈ (groupsBy ccLeR (fun r => (r.country, r.product)) v).map
        (fun g => (g.1, sumAmount g.2)) := (List.mem_insertionSort descByVal).mp hp1
    obtain ⟨g, hg, rfl⟩ := List.mem_map.mp hp2
    obtain ⟨k, hk, rfl⟩ := List.mem_map.mp hg
    have hk2 : k ∈ dedupFirst (v.map (fun r => (r.country, r.product))) :=
      (List.mem_insertionSort ccLeR).mp hk
    exact ⟨(mem_dedupFirst _ _).mp hk2, rfl⟩

/-- C6 witness: the amended statement instantiated on the sixteen-combination
view. -/
theorem top_combos_top15_sorted_witness :
    (top_combos combosView).length = 15
    ∧ (top_combos combosView).Sorted descByVal
    ∧ ∀ p ∈ top_combos combosView,
        p.1 ∈ combosView.map (fun r => (r.country, r.product))
        ∧ p.2 = sumAmount (combosView.filter (fun r => (r.country, r.product) = p.1)) :=
  top_combos_top15_sorted combosView (by with_unfolding_all decide)

/-- C7: the lookup wrapper turns every collaborator exception into `none` and
every success into a 3-letter code (never propagating an exception); dropping
the ISO column from the choropleth aggregate recovers exactly the per-country
sums (so unresolved countries are still counted there and in every
non-geographic aggregate, which are functions of the view alone); and the
rows the choropleth can locate are exactly those with a resolved code. -/
theorem geo_lookup_isolated (lookup : String → Except String String)
    (h3 : ∀ n c, lookup n = Except.ok c → c.length = 3)
    (name : String) (v : List CRow) :
    (country_to_iso lookup name = none
      ∨ ∃ c, country_to_iso lookup name = some c ∧ c.length = 3)
    ∧ (country_sales_iso lookup v).map (fun t => (t.1, t.2.1)) = country_sales v
    ∧ (choropleth_rows lookup v).all (fun t => t.2.2.isSome) = true := by
  refine ⟨?_, ?_, ?_⟩
  · cases hl : lookup name with
    | error e => exact Or.inl (by simp [country_to_iso, hl])
    | ok c => exact Or.inr ⟨c, by simp [country_to_iso, hl], h3 name c hl⟩
  · rw [country_sales_iso, List.map_map]
    have hc : ((fun t : String × ℚ × Option String => (t.1, t.2.1))
        ∘ fun p : String × ℚ => (p.1, p.2, country_to_iso lookup p.1)) = id := by
      funext p
      rfl
    rw [hc, List.map_id]
  · apply List.all_eq_true.mpr
    intro t ht
    exact ((List.mem_filter.mp ht).2)

/-- C7 witness: the lookup wrapper instantiated with a concrete collaborator
that resolves only `"India"` and raises on everything else, on a two-country
view containing the unresolvable `"Atlantis"`. -/
theorem geo_lookup_isolated_witness :
    (country_to_iso lookupDemo "Atlantis" = none
      ∨ ∃ c, country_to_iso lookupDemo "Atlantis" = some c ∧ c.length = 3)
    ∧ (country_sales_iso lookupDemo geoView).map (fun t => (t.1, t.2.1))
        = country_sales geoView
    ∧ (choropleth_rows lookupDemo geoView).all (fun t => t.2.2.isSome) = true :=
  geo_lookup_isolated lookupDemo
    (by
      intro n c h
      unfold lookupDemo at h
      split at h
      · cases h
        rfl
      · cases h)
    "Atlantis" geoView

/-! ## Round-trip lemmas

The exported text never survives a second pass through the loader: every
written amount is a plain decimal (so it re-parses), but every written date is
ISO `YYYY-MM-DD`, which the `%d-%b-%y` parse rejects, so every exported row is
dropped. -/

theorem digitChar_isDigit (n : ℕ) (h : n < 10) : (Nat.digitChar n).isDigit = true := by
  interval_cases n <;> decide

theorem lowerChar_of_isDigit (c : Char) (h : c.isDigit = true) : lowerChar c = c := by
  unfold lowerChar
  rw [if_neg]
  rintro ⟨h1, _⟩
  simp only [Char.isDigit, Bool.and_eq_true, decide_eq_true_eq, ge_iff_le] at h
  have h2 : c.val ≤ 57 := h.2
  have h3 : c.val.toNat ≤ 57 := by
    rw [UInt32.le_def, BitVec.le_def] at h2
    simpa using h2
  simp only [Char.toNat] at h1
  omega

theorem lowerChars_of_digits (l : List Char) (h : ∀ c ∈ l, c.isDigit = true) :
    lowerChars l = l := by
  unfold lowerChars
  have hcg : ∀ c ∈ l, lowerChar c = id c := fun c hc => lowerChar_of_isDigit c (h c hc)
  rw [List.map_congr_left hcg, List.map_id]

theorem toDigitsCore_digits :
    ∀ (fuel n : ℕ) (acc : List Char), (∀ c ∈ acc, c.isDigit = true) →
      ∀ c ∈ Nat.toDigitsCore 10 fuel n acc, c.isDigit = true := by
  intro fuel
  induction fuel with
  | zero =>
      intro n acc hacc
      simpa [Nat.toDigitsCore] using hacc
  | succ fuel ih =>
      intro n acc hacc
      have hcons : ∀ c ∈ Nat.digitChar (n % 10) :: acc, c.isDigit = true := by
        intro c hc
        rcases List.mem_cons.mp hc with rfl | hc
        · exact digitChar_isDigit _ (Nat.mod_lt _ (by norm_num))
        · exact hacc c hc
      simp only [Nat.toDigitsCore]
      split
      · exact hcons
      · exact ih (n / 10) _ hcons

theorem toDigitsCore_length :
    ∀ (fuel n : ℕ) (acc : List Char),
      acc.length ≤ (Nat.toDigitsCore 10 fuel n acc).length := by
  intro fuel
  induction fuel with
  | zero => intro n acc; simp [Nat.toDigitsCore]
  | succ fuel ih =>
      intro n acc
      simp only [Nat.toDigitsCore]
      split
      · simp
      · calc acc.length ≤ (Nat.digitChar (n % 10) :: acc).length := by simp
          _ ≤ _ := ih (n / 10) _

theorem natDigits_digits (n : ℕ) : ∀ c ∈ natDigits n, c.isDigit = true := by
  unfold natDigits Nat.toDigits
  exact toDigitsCore_digits (n + 1) n [] (by simp)

theorem natDigits_ne_nil (n : ℕ) : natDigits n ≠ [] := by
  unfold natDigits Nat.toDigits
  simp only [Nat.toDigitsCore]
  split
  · simp
  · intro h
    have := toDigitsCore_length n (n / 10) [Nat.digitChar (n % 10)]
    rw [h] at this
    simp at this

theorem fracDigits_digits :
    ∀ (fuel r d : ℕ), ∀ c ∈ fracDigits fuel r d, c.isDigit = true := by
  intro fuel
  induction fuel with
  | zero => intro r d c hc; simp [fracDigits] at hc
  | succ fuel ih =>
      intro r d c hc
      cases r with
      | zero => simp [fracDigits] at hc
      | succ r' =>
          simp only [fracDigits] at hc
          rcases List.mem_cons.mp hc with rfl | hc
          · exact digitChar_isDigit _ (Nat.mod_lt _ (by norm_num))
          · exact ih _ d c hc

theorem splitOnChar_no_sep (c : Char) :
    ∀ (a : List Char), (∀ x ∈ a, x ≠ c) → splitOnChar c a = [a] := by
  intro a
  induction a with
  | nil => intro _; rfl
  | cons x xs ih =>
      intro h
      have hx : x ≠ c := h x (List.mem_cons_self x xs)
      have ihx := ih (fun y hy => h y (List.mem_cons_of_mem x hy))
      simp only [splitOnChar, ihx, if_neg hx]

theorem splitOnChar_append (c : Char) :
    ∀ (a b : List Char), (∀ x ∈ a, x ≠ c) →
      splitOnChar c (a ++ c :: b) = a :: splitOnChar c b := by
  intro a
  induction a with
  | nil =>
      intro b _
      simp only [List.nil_append, splitOnChar]
      rcases hb : splitOnChar c b with _ | ⟨h, t⟩
      · exact absurd hb (splitOnChar_ne_nil c b)
      · simp
  | cons x xs ih =>
      intro b h
      have hx : x ≠ c := h x (List.mem_cons_self x xs)
      have ihx := ih b (fun y hy => h y (List.mem_cons_of_mem x hy))
      simp only [List.cons_append, splitOnChar, List.append_eq, ihx, if_neg hx]

theorem parseNatDigits_isSome (l : List Char) (hne : l ≠ [])
    (hd : ∀ c ∈ l, c.isDigit = true) : (parseNatDigits l).isSome = true := by
  unfold parseNatDigits
  rw [if_pos ⟨hne, List.all_eq_true.mpr hd⟩]
  rfl

theorem monthIndex_none (l : List Char) (hd : ∀ c ∈ l, c.isDigit = true) :
    ∀ (ms : List (List Char)) (i : ℕ),
      (∀ m ∈ ms, lowerChars m ≠ [] ∧ ((lowerChars m).headD ' ').isDigit = false) →
      monthIndex l ms i = none := by
  intro ms
  induction ms with
  | nil => intro i _; rfl
  | cons m rest ih =>
      intro i hm
      obtain ⟨hne, hhd⟩ := hm m (List.mem_cons_self m rest)
      obtain ⟨x, xs, hx⟩ := List.exists_cons_of_ne_nil hne
      have hxd : x.isDigit = false := by
        rw [hx] at hhd
        simpa using hhd
      have hcond : ¬(lowerChars m = l) := by
        rw [hx]
        intro heq
        have hmem := hd x (heq ▸ List.mem_cons_self x xs)
        rw [hxd] at hmem
        cases hmem
      simp only [monthIndex, if_neg hcond]
      exact ih (i + 1) (fun m' hm' => hm m' (List.mem_cons_of_mem _ hm'))

theorem monthFromAbbrev_digits (l : List Char) (hd : ∀ c ∈ l, c.isDigit = true) :
    monthFromAbbrev l = none := by
  unfold monthFromAbbrev
  rw [lowerChars_of_digits l hd]
  exact monthIndex_none l hd monthAbbrevs 1 (by decide)

theorem pad2Chars_digits (n : ℕ) : ∀ c ∈ pad2Chars n, c.isDigit = true := by
  unfold pad2Chars
  split
  · intro c hc
    rcases List.mem_cons.mp hc with rfl | hc
    · decide
    · exact natDigits_digits n c hc
  · exact natDigits_digits n

theorem pad2Chars_ne_nil (n : ℕ) : pad2Chars n ≠ [] := by
  unfold pad2Chars
  split
  · simp
  · exact natDigits_ne_nil n

/-- A serialized ISO date never parses back under `%d-%b-%y`: its month field
is numeric, not an abbreviated month name. -/
theorem parseDate_isoDate (d : Date) : parseDate (isoDate d) = none := by
  have hyear : ∀ x ∈ natDigits d.year, x ≠ '-' :=
    fun x hx => (isDigit_ne x (natDigits_digits _ x hx)).1
  have hmonth : ∀ x ∈ pad2Chars d.month, x ≠ '-' :=
    fun x hx => (isDigit_ne x (pad2Chars_digits _ x hx)).1
  have hday : ∀ x ∈ pad2Chars d.day, x ≠ '-' :=
    fun x hx => (isDigit_ne x (pad2Chars_digits _ x hx)).1
  have hdata : (isoDate d).data
      = natDigits d.year ++ '-' :: (pad2Chars d.month ++ '-' :: pad2Chars d.day) := rfl
  unfold parseDate
  rw [hdata, splitOnChar_append '-' _ _ hyear, splitOnChar_append '-' _ _ hmonth,
    splitOnChar_no_sep '-' _ hday]
  obtain ⟨ny, hny⟩ := Option.isSome_iff_exists.mp
    (parseNatDigits_isSome _ (natDigits_ne_nil d.year) (natDigits_digits d.year))
  simp [hny, monthFromAbbrev_digits _ (pad2Chars_digits d.month)]

/-- Every character the amount serializer emits is a digit, a minus sign or a
decimal point. -/
theorem amountCsvChars_kinds (q : ℚ) :
    ∀ c ∈ amountCsvChars q, c.isDigit = true ∨ c = '-' ∨ c = '.' := by
  intro c hc
  unfold amountCsvChars at hc
  simp only [List.mem_append, List.mem_cons] at hc
  rcases hc with (hc | hc) | hc | hc
  · split at hc
    · simp only [List.mem_singleton] at hc
      exact Or.inr (Or.inl hc)
    · simp at hc
  · exact Or.inl (natDigits_digits _ c hc)
  · exact Or.inr (Or.inr hc)
  · split at hc
    · simp only [List.mem_singleton] at hc
      subst hc
      exact Or.inl (by decide)
    · exact Or.inl (fracDigits_digits 20 _ _ c hc)

/-- A plain decimal numeral of digits, with or without a leading minus sign,
always parses. -/
theorem parseDecimal_digits (ip tl : List Char)
    (hip : ip ≠ []) (hipd : ∀ c ∈ ip, c.isDigit = true)
    (htl : tl ≠ []) (htld : ∀ c ∈ tl, c.isDigit = true) :
    (parseDecimal (String.mk (ip ++ '.' :: tl))).isSome = true
    ∧ (parseDecimal (String.mk ('-' :: (ip ++ '.' :: tl)))).isSome = true := by
  have hip_nd : ∀ c ∈ ip, c ≠ '.' := fun c hc => (isDigit_ne c (hipd c hc)).2.1
  have htl_nd : ∀ c ∈ tl, c ≠ '.' := fun c hc => (isDigit_ne c (htld c hc)).2.1
  have hsplit : splitOnChar '.' (ip ++ '.' :: tl) = [ip, tl] := by
    rw [splitOnChar_append '.' _ _ hip_nd, splitOnChar_no_sep '.' _ htl_nd]
  obtain ⟨n, hn⟩ := Option.isSome_iff_exists.mp (parseNatDigits_isSome ip hip hipd)
  obtain ⟨f, hf⟩ := Option.isSome_iff_exists.mp (parseNatDigits_isSome tl htl htld)
  constructor
  · obtain ⟨x, xs, rfl⟩ := List.exists_cons_of_ne_nil hip
    have hxd : x.isDigit = true := hipd x (List.mem_cons_self x xs)
    have hxne := isDigit_ne x hxd
    have hxplus : x ≠ '+' := by
      rintro rfl
      exact absurd hxd (by decide)
    have hsign : signSplit ((String.mk ((x :: xs) ++ '.' :: tl)).data)
        = (1, (x :: xs) ++ '.' :: tl) := by
      show signSplit (x :: (xs ++ '.' :: tl)) = _
      unfold signSplit
      split
      · rename_i heq
        injection heq with h1 _
        exact absurd h1 hxne.1
      · rename_i heq
        injection heq with h1 _
        exact absurd h1 hxplus
      · rw [List.cons_append]
    unfold parseDecimal
    rw [hsign]
    rw [List.cons_append] at hsplit
    simp [hsplit, hn, hf, htl]
  · have hsign : signSplit ((String.mk ('-' :: (ip ++ '.' :: tl))).data)
        = (-1, ip ++ '.' :: tl) := rfl
    unfold parseDecimal
    rw [hsign]
    simp [hsplit, hn, hf, hip, htl]

/-- Every serialized amount is plain numeric text: the decimal parser accepts
it as is, which is exactly the condition under which `read_csv` infers a
float column. -/
theorem parseDecimal_amountCsv_isSome (q : ℚ) :
    (parseDecimal (amountCsv q)).isSome = true := by
  have hipne : natDigits (q.num.natAbs / q.den) ≠ [] := natDigits_ne_nil _
  have hipd : ∀ c ∈ natDigits (q.num.natAbs / q.den), c.isDigit = true :=
    natDigits_digits _
  have htlne : (if fracDigits 20 (q.num.natAbs % q.den) q.den = []
      then ['0'] else fracDigits 20 (q.num.natAbs % q.den) q.den) ≠ [] := by
    split <;> simp_all
  have htld : ∀ c ∈ (if fracDigits 20 (q.num.natAbs % q.den) q.den = []
      then ['0'] else fracDigits 20 (q.num.natAbs % q.den) q.den), c.isDigit = true := by
    split
    · intro c hc
      simp only [List.mem_singleton] at hc
      subst hc
      decide
    · exact fracDigits_digits 20 _ _
  unfold amountCsv
  by_cases hq : q < 0
  · have hshape : amountCsvChars q
        = '-' :: (natDigits (q.num.natAbs / q.den) ++ '.'
            :: (if fracDigits 20 (q.num.natAbs % q.den) q.den = []
                then ['0'] else fracDigits 20 (q.num.natAbs % q.den) q.den)) := by
      unfold amountCsvChars
      rw [if_pos hq, List.singleton_append, List.cons_append]
    rw [hshape]
    exact (parseDecimal_digits _ _ hipne hipd htlne htld).2
  · have hshape : amountCsvChars q
        = natDigits (q.num.natAbs / q.den) ++ '.'
            :: (if fracDigits 20 (q.num.natAbs % q.den) q.den = []
                then ['0'] else fracDigits 20 (q.num.natAbs % q.den) q.den) := by
      unfold amountCsvChars
      rw [if_neg hq, List.nil_append]
    rw [hshape]
    exact (parseDecimal_digits _ _ hipne hipd htlne htld).1

/-- Every serialized amount also survives the strip-and-parse pipeline: it
contains no currency characters, so stripping is the identity. -/
theorem parseAmount_amountCsv_isSome (q : ℚ) :
    (parseAmount (amountCsv q)).isSome = true := by
  have hfilter : (amountCsvChars q).filter (fun c => decide (c ≠ '$' ∧ c ≠ ','))
      = amountCsvChars q := by
    apply List.filter_eq_self.mpr
    intro c hc
    apply decide_eq_true
    rcases amountCsvChars_kinds q c hc with h | h | h
    · exact ⟨(isDigit_ne c h).2.2.1, (isDigit_ne c h).2.2.2⟩
    · subst h; exact ⟨by decide, by decide⟩
    · subst h; exact ⟨by decide, by decide⟩
  unfold parseAmount stripCurrency amountCsv
  rw [(rfl : (String.mk (amountCsvChars q)).data = amountCsvChars q), hfilter]
  exact parseDecimal_amountCsv_isSome q

/-- C8 counterexample: exporting the two-row scenario view and re-loading the
exported text through the loader does not reproduce the row set — the reload
crashes at the currency-stripping step (the exported `Amount` column is plain
numeric text, so it is read back as a float column and the `.str` accessor
raises `AttributeError`) while the view has two rows. -/
theorem export_reload_counterexample :
    load_data (export_csv viewScenario)
      = Except.error "Can only use .str accessor with string values"
    ∧ viewScenario.length = 2 := by
  with_unfolding_all decide

/-- C8 (amended): the round trip fails rather than reproducing the row set:
`to_csv` writes every amount as a plain decimal numeral, so on re-reading the
`Amount` column is inferred as float64 and the loader's
`.str.replace('[$,]', ...)` step raises
`AttributeError: Can only use .str accessor with string values` for the export
of every non-empty filtered view — the reload crashes before any row is
reproduced.  (Even if the amounts were kept as text, the ISO-serialized dates
would fail the `%d-%b-%y` parse and drop every row, see `parseDate_isoDate`.) -/
theorem export_reload_raises (v : List CRow) (hne : v ≠ []) :
    load_data (export_csv v)
      = Except.error "Can only use .str accessor with string values" := by
  have hall : (export_csv v).all (fun r => (parseDecimal r.amountStr).isSome) = true := by
    apply List.all_eq_true.mpr
    intro r hr
    obtain ⟨c, _, rfl⟩ := List.mem_map.mp hr
    exact parseDecimal_amountCsv_isSome c.amount
  have hnil : export_csv v ≠ [] := by
    intro h
    exact hne (List.map_eq_nil_iff.mp h)
  unfold load_data
  rw [if_pos ⟨hnil, hall⟩]

/-- C8 witness: the amended statement instantiated on the non-empty scenario
view. -/
theorem export_reload_raises_witness :
    load_data (export_csv viewScenario)
      = Except.error "Can only use .str accessor with string values" :=
  export_reload_raises viewScenario (by with_unfolding_all decide)

end BeansToBars
